import Mathlib

/-!
Formal model of the quill backend worker
(source file: src/quill/src/detail/BackendWorker.cpp).

The model follows the source closely:

* `scanFrom` / `scanLanes` embed the scan loop of
  `BackendWorker::_process_record`: the running minimum `min_rdtsc` starts
  at the largest uint64 value, every queue head (obtained via `try_pop`,
  whose handle is released unless the record is the final selection) is
  admitted as the new candidate only under a strict `<` comparison, and the
  index of the current candidate is tracked.
* `processRecord` embeds the whole of `_process_record`: when a candidate
  was selected, that record is removed from its lane (the handle commits on
  destruction after `backend_process`), all other lanes are untouched; when
  no candidate was selected the function reports false.
* `mainLoopStep` embeds `_main_loop`: one call of `_process_record`, and an
  idle sleep exactly when it reported false.
* `exitDrain` embeds `_exit`: repeat `_process_record` until it reports
  false; the fuel argument of `drainFuel` is bounded by the total record
  count, which suffices because every successful step removes one record.
* `run` / `stop` / `runModel` embed the worker lifecycle: the once-flag
  guard of `run`, the relaxed boolean running flag, the join in `stop`, and
  the startup configuration (cpu affinity and thread naming, which throw on
  the worker thread, not on the thread that called `run`).

Timestamps are modelled as `Nat`; source values are uint64, and all
comparisons in the source go through the sentinel `UINT64_MAX` with strict
`<`, which the model reproduces literally.
-/

namespace Quill

/-- Largest uint64 value, the initial value of `min_rdtsc` in
`_process_record`. -/
def UINT64_MAX : Nat := 18446744073709551615

/-- Sentinel for "no cpu affinity requested"
(`std::numeric_limits of uint16_t ... max()` in `run`). -/
def UINT16_MAX : Nat := 65535

/-- One log record: a timestamp (rdtsc counter value) and an
uninterpreted payload identifier. -/
structure Record where
  timestamp : Nat
  payload : Nat
deriving DecidableEq, Repr

/-- A lane is the pending-record queue of one producer thread
(`ThreadContext::SPSCQueueT`), oldest record first. -/
abbrev Lane := List Record

/-- The scan loop of `_process_record`. Arguments: index of the next lane,
current `(min_rdtsc, candidate lane index)`, remaining lanes. An empty lane
is an invalid `try_pop` handle and is skipped; a head admitted under strict
`<` becomes the new candidate (the previous candidate handle is released);
any other head handle is released immediately. -/
def scanFrom : Nat → Nat × Option Nat → List Lane → Nat × Option Nat
  | _, best, [] => best
  | i, best, [] :: rest => scanFrom (i + 1) best rest
  | i, best, (r :: _) :: rest =>
      if r.timestamp < best.1 then scanFrom (i + 1) (r.timestamp, some i) rest
      else scanFrom (i + 1) best rest

/-- Scan of a whole lane snapshot, starting from
`min_rdtsc = UINT64_MAX` and no candidate handle. -/
def scanLanes (lanes : List Lane) : Nat × Option Nat :=
  scanFrom 0 (UINT64_MAX, none) lanes

/-- `_process_record`: scan all lanes; if a candidate was selected, commit
it (remove it from its lane, dispatch it) and report the record together
with the updated lanes; otherwise report that nothing was processed. -/
def processRecord (lanes : List Lane) : Option (Record × List Lane) :=
  match (scanLanes lanes).2 with
  | none => none
  | some k =>
      match lanes.get? k with
      | some (r :: t) => some (r, lanes.set k t)
      | _ => none

/-- Total number of pending records over all lanes. -/
def laneSize (lanes : List Lane) : Nat :=
  (lanes.map List.length).sum

/-- Fuelled drain loop: repeat `processRecord`, collecting the dispatched
records in order, until it reports false or the fuel runs out. -/
def drainFuel : Nat → List Lane → List Record × List Lane
  | 0, lanes => ([], lanes)
  | fuel + 1, lanes =>
      match processRecord lanes with
      | none => ([], lanes)
      | some (r, lanes') =>
          let p := drainFuel fuel lanes'
          (r :: p.1, p.2)

/-- `_exit`: loop `_process_record` until there are no log records left to
process. Total record count is enough fuel because every successful step
removes exactly one record. -/
def exitDrain (lanes : List Lane) : List Record × List Lane :=
  drainFuel (laneSize lanes) lanes

/-- Observable outcome of one `_main_loop` iteration. -/
inductive EngineEvent where
  | dispatched (r : Record)
  | slept
deriving DecidableEq, Repr

/-- `_main_loop`: one `_process_record` call; when it reports false the
backend thread sleeps for the configured duration. -/
def mainLoopStep (lanes : List Lane) : List Lane × EngineEvent :=
  match processRecord lanes with
  | some (r, lanes') => (lanes', EngineEvent.dispatched r)
  | none => (lanes, EngineEvent.slept)

/-- An event of the concurrent execution model: a producer push into a
lane, or one merge step of the engine. -/
inductive Op where
  | push (lane : Nat) (r : Record)
  | mergeStep
deriving DecidableEq, Repr

/-- Producer push: append a record at the back of lane `i`. -/
def pushLane (lanes : List Lane) (i : Nat) (r : Record) : List Lane :=
  lanes.set i (lanes.getD i [] ++ [r])

/-- One engine step in the execution model: dispatched records are
appended to the commit log. -/
def engineStep (st : List Lane × List Record) : List Lane × List Record :=
  match processRecord st.1 with
  | some (r, lanes') => (lanes', st.2 ++ [r])
  | none => st

/-- Run an interleaving of pushes and merge steps from a starting state
`(lanes, commit log)`. -/
def runOps (ops : List Op) (st : List Lane × List Record) :
    List Lane × List Record :=
  ops.foldl
    (fun st op =>
      match op with
      | Op.push i r => (pushLane st.1 i r, st.2)
      | Op.mergeStep => engineStep st)
    st

/-- The timestamps pushed to lane `i` by an operation sequence, in push
order. -/
def pushedTs (ops : List Op) (i : Nat) : List Nat :=
  ops.filterMap
    (fun op =>
      match op with
      | Op.push j r => if j = i then some r.timestamp else none
      | Op.mergeStep => none)

/-- Each producer pushes with strictly increasing timestamps. -/
def perProducerIncreasing (numLanes : Nat) (ops : List Op) : Prop :=
  ∀ i, i < numLanes → List.Pairwise (fun a b => a < b) (pushedTs ops i)

/-- The committed sequence is non-decreasing in timestamp. -/
def committedNonDecreasing (log : List Record) : Prop :=
  List.Pairwise (fun a b => a.timestamp ≤ b.timestamp) log

/-- Lifecycle state of the backend worker visible across threads:
the `_is_running` flag, the `_start_init_once_flag`, and whether the
worker thread object is joinable. -/
structure WorkerState where
  is_running : Bool
  once_flag_used : Bool
  thread_joinable : Bool
deriving DecidableEq, Repr

/-- State before `run` was ever called. -/
def freshWorkerState : WorkerState :=
  { is_running := false, once_flag_used := false, thread_joinable := false }

/-- `run`: guarded by `std::call_once`; on the first call it stores true
into `_is_running` and spawns the worker thread; any later call does
nothing. -/
def run (st : WorkerState) : WorkerState :=
  if st.once_flag_used then st
  else { is_running := true, once_flag_used := true, thread_joinable := true }

/-- `stop`: store false into `_is_running`, then join the worker thread if
it is joinable; afterwards the thread is not joinable. -/
def stop (st : WorkerState) : WorkerState :=
  { st with is_running := false, thread_joinable := false }

/-- Host capabilities consumed at startup: whether `sched_setaffinity`
and `prctl(PR_SET_NAME)` succeed. -/
structure HostEnv where
  affinity_ok : Bool
  name_ok : Bool
deriving DecidableEq, Repr

/-- Engine configuration consumed by `run`. -/
structure Config where
  cpu_affinity : Nat
  sleep_duration : Nat
deriving DecidableEq, Repr

/-- Exceptions thrown by `_set_cpu_affinity` and `_set_thread_name`. -/
inductive SetupError where
  | affinityFailed
  | nameFailed
deriving DecidableEq, Repr

deriving instance DecidableEq for Except

/-- Startup configuration executed at the top of the worker thread body:
apply cpu affinity when requested (throwing on failure), then apply the
thread name (throwing on failure). -/
def workerStartup (cfg : Config) (env : HostEnv) : Except SetupError Unit :=
  if cfg.cpu_affinity ≠ UINT16_MAX ∧ env.affinity_ok = false then
    Except.error SetupError.affinityFailed
  else if env.name_ok = false then Except.error SetupError.nameFailed
  else Except.ok ()

/-- Full model of one `run` call: the lifecycle state afterwards, the
outcome visible to the caller of `run` (always a normal return: `run`
returns void and never observes the worker thread), and the startup
outcome on the worker thread (trivially ok when no thread was spawned). -/
def runModel (cfg : Config) (env : HostEnv) (st : WorkerState) :
    WorkerState × Except SetupError Unit × Except SetupError Unit :=
  (run st, Except.ok (),
    if st.once_flag_used then Except.ok () else workerStartup cfg env)

/-! ### Properties of the scan loop -/

/-- The running minimum never increases during the scan. -/
theorem scanFrom_fst_le (L : List Lane) :
    ∀ (i b : Nat) (ob : Option Nat), (scanFrom i (b, ob) L).1 ≤ b := by
  induction L with
  | nil => intro i b ob; exact le_refl b
  | cons lane rest ih =>
    intro i b ob
    cases lane with
    | nil => simpa [scanFrom] using ih (i + 1) b ob
    | cons s u =>
      by_cases hlt : s.timestamp < b
      · have h1 := ih (i + 1) s.timestamp (some i)
        have h2 : (scanFrom i (b, ob) ((s :: u) :: rest)).1 =
            (scanFrom (i + 1) (s.timestamp, some i) rest).1 := by
          simp [scanFrom, hlt]
        rw [h2]
        exact le_trans h1 (le_of_lt hlt)
      · have h2 : (scanFrom i (b, ob) ((s :: u) :: rest)).1 =
            (scanFrom (i + 1) (b, ob) rest).1 := by
          simp [scanFrom, hlt]
        rw [h2]
        exact ih (i + 1) b ob

/-- After the scan, the running minimum is at most the timestamp of every
lane head. -/
theorem scanFrom_fst_le_head (L : List Lane) :
    ∀ (i b : Nat) (ob : Option Nat) (j : Nat) (r : Record) (t : Lane),
      L.get? j = some (r :: t) → (scanFrom i (b, ob) L).1 ≤ r.timestamp := by
  induction L with
  | nil => intro i b ob j r t h; simp at h
  | cons lane rest ih =>
    intro i b ob j r t h
    cases j with
    | zero =>
      simp at h
      subst h
      by_cases hlt : r.timestamp < b
      · have h2 : (scanFrom i (b, ob) ((r :: t) :: rest)).1 =
            (scanFrom (i + 1) (r.timestamp, some i) rest).1 := by
          simp [scanFrom, hlt]
        rw [h2]
        exact scanFrom_fst_le rest (i + 1) r.timestamp (some i)
      · have h2 : (scanFrom i (b, ob) ((r :: t) :: rest)).1 =
            (scanFrom (i + 1) (b, ob) rest).1 := by
          simp [scanFrom, hlt]
        rw [h2]
        exact le_trans (scanFrom_fst_le rest (i + 1) b ob) (le_of_not_lt hlt)
    | succ j' =>
      have h' : rest.get? j' = some (r :: t) := by simpa using h
      cases lane with
      | nil => simpa [scanFrom] using ih (i + 1) b ob j' r t h'
      | cons s u =>
        by_cases hlt : s.timestamp < b
        · simpa [scanFrom, hlt] using ih (i + 1) s.timestamp (some i) j' r t h'
        · simpa [scanFrom, hlt] using ih (i + 1) b ob j' r t h'

/-- Once a candidate handle is held, the scan always ends with a
candidate. -/
theorem scanFrom_snd_isSome (L : List Lane) :
    ∀ (i b k : Nat), ((scanFrom i (b, some k) L).2).isSome = true := by
  induction L with
  | nil => intro i b k; rfl
  | cons lane rest ih =>
    intro i b k
    cases lane with
    | nil => simpa [scanFrom] using ih (i + 1) b k
    | cons s u =>
      by_cases hlt : s.timestamp < b
      · simpa [scanFrom, hlt] using ih (i + 1) s.timestamp i
      · simpa [scanFrom, hlt] using ih (i + 1) b k

/-- When the scan ends without a candidate, it started without one, the
minimum is unchanged, and no lane head was below the starting minimum. -/
theorem scanFrom_eq_none (L : List Lane) :
    ∀ (i b : Nat) (ob : Option Nat), (scanFrom i (b, ob) L).2 = none →
      ob = none ∧ (scanFrom i (b, ob) L).1 = b ∧
        ∀ j r t, L.get? j = some (r :: t) → b ≤ r.timestamp := by
  induction L with
  | nil =>
    intro i b ob h
    exact ⟨h, rfl, by intro j r t hj; simp at hj⟩
  | cons lane rest ih =>
    intro i b ob h
    cases lane with
    | nil =>
      have h' : (scanFrom (i + 1) (b, ob) rest).2 = none := by
        simpa [scanFrom] using h
      obtain ⟨h1, h2, h3⟩ := ih (i + 1) b ob h'
      refine ⟨h1, by simpa [scanFrom] using h2, ?_⟩
      intro j r t hj
      cases j with
      | zero => simp at hj
      | succ j' => exact h3 j' r t (by simpa using hj)
    | cons s u =>
      by_cases hlt : s.timestamp < b
      · exfalso
        have h' : (scanFrom (i + 1) (s.timestamp, some i) rest).2 = none := by
          simpa [scanFrom, hlt] using h
        have h2 := scanFrom_snd_isSome rest (i + 1) s.timestamp i
        rw [h'] at h2
        simp at h2
      · have h' : (scanFrom (i + 1) (b, ob) rest).2 = none := by
          simpa [scanFrom, hlt] using h
        obtain ⟨h1, h2, h3⟩ := ih (i + 1) b ob h'
        refine ⟨h1, by simpa [scanFrom, hlt] using h2, ?_⟩
        intro j r t hj
        cases j with
        | zero =>
          simp at hj
          obtain ⟨hs, _⟩ := hj
          subst hs
          exact le_of_not_lt hlt
        | succ j' => exact h3 j' r t (by simpa using hj)

/-- When the scan ends with a candidate, either the starting candidate
survived together with the starting minimum, or the candidate is a lane
head whose timestamp equals the final minimum, strictly below the starting
minimum. -/
theorem scanFrom_eq_some (L : List Lane) :
    ∀ (i b : Nat) (ob : Option Nat) (m k : Nat),
      scanFrom i (b, ob) L = (m, some k) →
      (ob = some k ∧ m = b) ∨
        ∃ j r t, L.get? j = some (r :: t) ∧ k = i + j ∧
          r.timestamp = m ∧ m < b := by
  induction L with
  | nil =>
    intro i b ob m k h
    simp [scanFrom] at h
    exact Or.inl ⟨h.2, h.1.symm⟩
  | cons lane rest ih =>
    intro i b ob m k h
    cases lane with
    | nil =>
      have h' : scanFrom (i + 1) (b, ob) rest = (m, some k) := by
        simpa [scanFrom] using h
      rcases ih (i + 1) b ob m k h' with h1 | ⟨j, r, t, hj, hk, hr, hm⟩
      · exact Or.inl h1
      · exact Or.inr ⟨j + 1, r, t, by simpa using hj, by omega, hr, hm⟩
    | cons s u =>
      by_cases hlt : s.timestamp < b
      · have h' : scanFrom (i + 1) (s.timestamp, some i) rest = (m, some k) := by
          simpa [scanFrom, hlt] using h
        rcases ih (i + 1) s.timestamp (some i) m k h' with ⟨h1, h2⟩ |
            ⟨j, r, t, hj, hk, hr, hm⟩
        · have hik : k = i := by
            injection h1 with h1
            omega
          refine Or.inr ⟨0, s, u, by simp, by omega, ?_, ?_⟩
          · omega
          · omega
        · exact Or.inr ⟨j + 1, r, t, by simpa using hj, by omega, hr, by omega⟩
      · have h' : scanFrom (i + 1) (b, ob) rest = (m, some k) := by
          simpa [scanFrom, hlt] using h
        rcases ih (i + 1) b ob m k h' with h1 | ⟨j, r, t, hj, hk, hr, hm⟩
        · exact Or.inl h1
        · exact Or.inr ⟨j + 1, r, t, by simpa using hj, by omega, hr, hm⟩

/-- First-candidate-wins: under strict comparison, every lane strictly
before the selected lane has a head strictly above the final minimum
(so a tie on the minimum is resolved in favour of the earliest lane). -/
theorem scanFrom_first_min (L : List Lane) :
    ∀ (i b : Nat) (ob : Option Nat) (m k : Nat),
      (∀ k₀, ob = some k₀ → k₀ < i) →
      scanFrom i (b, ob) L = (m, some k) →
      ∀ j r t, L.get? j = some (r :: t) → i + j < k → m < r.timestamp := by
  induction L with
  | nil => intro i b ob m k hk h j r t hj hjk; simp at hj
  | cons lane rest ih =>
    intro i b ob m k hk h j r t hj hjk
    cases lane with
    | nil =>
      have h' : scanFrom (i + 1) (b, ob) rest = (m, some k) := by
        simpa [scanFrom] using h
      cases j with
      | zero => simp at hj
      | succ j' =>
        exact ih (i + 1) b ob m k
          (fun k₀ hk₀ => lt_trans (hk k₀ hk₀) (Nat.lt_succ_self i)) h'
          j' r t (by simpa using hj) (by omega)
    | cons s u =>
      by_cases hlt : s.timestamp < b
      · have h' : scanFrom (i + 1) (s.timestamp, some i) rest = (m, some k) := by
          simpa [scanFrom, hlt] using h
        cases j with
        | zero =>
          simp at hj
          obtain ⟨hs, _⟩ := hj
          rcases scanFrom_eq_some rest (i + 1) s.timestamp (some i) m k h' with
              ⟨h1, h2⟩ | ⟨j', r', t', hj', hk', hr', hm'⟩
          · exfalso
            injection h1 with h1
            omega
          · subst hs
            omega
        | succ j' =>
          exact ih (i + 1) s.timestamp (some i) m k
            (fun k₀ hk₀ => by injection hk₀ with e; omega) h'
            j' r t (by simpa using hj) (by omega)
      · have h' : scanFrom (i + 1) (b, ob) rest = (m, some k) := by
          simpa [scanFrom, hlt] using h
        cases j with
        | zero =>
          simp at hj
          obtain ⟨hs, _⟩ := hj
          rcases scanFrom_eq_some rest (i + 1) b ob m k h' with h1 |
              ⟨j', r', t', hj', hk', hr', hm'⟩
          · exfalso
            have := hk k h1.1
            omega
          · subst hs
            have := le_of_not_lt hlt
            omega
        | succ j' =>
          exact ih (i + 1) b ob m k
            (fun k₀ hk₀ => lt_trans (hk k₀ hk₀) (Nat.lt_succ_self i)) h'
            j' r t (by simpa using hj) (by omega)

/-- Scanning only empty lanes changes nothing. -/
theorem scanFrom_all_nil (L : List Lane) :
    ∀ (i : Nat) (best : Nat × Option Nat),
      (∀ l ∈ L, l = []) → scanFrom i best L = best := by
  induction L with
  | nil => intro i best h; rfl
  | cons lane rest ih =>
    intro i best h
    have hl : lane = [] := h lane (List.mem_cons_self lane rest)
    subst hl
    have := ih (i + 1) best (fun l hl => h l (List.mem_cons_of_mem _ hl))
    simpa [scanFrom] using this

/-! ### Properties of a whole merge step -/

/-- A scan with no selection leaves the minimum at the sentinel and means
every lane head is at or above the sentinel. -/
theorem scanLanes_none (lanes : List Lane)
    (h : (scanLanes lanes).2 = none) :
    (scanLanes lanes).1 = UINT64_MAX ∧
      ∀ j r t, lanes.get? j = some (r :: t) → UINT64_MAX ≤ r.timestamp := by
  obtain ⟨_, h2, h3⟩ := scanFrom_eq_none lanes 0 UINT64_MAX none h
  exact ⟨h2, h3⟩

/-- A scan with a selection points at a nonempty lane whose head carries
the final minimum, strictly below the sentinel. -/
theorem scanLanes_some (lanes : List Lane) (m k : Nat)
    (h : scanLanes lanes = (m, some k)) :
    ∃ r t, lanes.get? k = some (r :: t) ∧ r.timestamp = m ∧
      m < UINT64_MAX := by
  rcases scanFrom_eq_some lanes 0 UINT64_MAX none m k h with ⟨h1, _⟩ |
      ⟨j, r, t, hj, hk, hr, hm⟩
  · exact absurd h1 (by simp)
  · have hjk : j = k := by omega
    subst hjk
    exact ⟨r, t, hj, hr, hm⟩

/-- The final minimum of a scan is at most every lane head timestamp. -/
theorem scanLanes_le_heads (lanes : List Lane) (j : Nat) (r : Record)
    (t : Lane) (h : lanes.get? j = some (r :: t)) :
    (scanLanes lanes).1 ≤ r.timestamp :=
  scanFrom_fst_le_head lanes 0 UINT64_MAX none j r t h

/-- Lanes scanned before the selected lane have heads strictly above the
final minimum. -/
theorem scanLanes_first (lanes : List Lane) (m k : Nat)
    (h : scanLanes lanes = (m, some k)) :
    ∀ j r t, lanes.get? j = some (r :: t) → j < k → m < r.timestamp := by
  intro j r t hj hjk
  exact scanFrom_first_min lanes 0 UINT64_MAX none m k (by simp) h j r t hj
    (by omega)

/-- Full description of a successful merge step: the committed record was
the head of the selected lane, only that lane loses its head, the
committed timestamp is strictly below the sentinel, it is a minimum over
all lane heads, and earlier lanes were strictly above it. -/
theorem processRecord_some (lanes : List Lane) (r : Record)
    (lanes' : List Lane) (h : processRecord lanes = some (r, lanes')) :
    ∃ k t, lanes.get? k = some (r :: t) ∧ lanes' = lanes.set k t ∧
      r.timestamp < UINT64_MAX ∧
      (∀ j s u, lanes.get? j = some (s :: u) → r.timestamp ≤ s.timestamp) ∧
      (∀ j s u, lanes.get? j = some (s :: u) → j < k →
        r.timestamp < s.timestamp) := by
  cases hs : (scanLanes lanes).2 with
  | none =>
    rw [processRecord, hs] at h
    exact absurd h (by simp)
  | some k =>
    have hpair : scanLanes lanes = ((scanLanes lanes).1, some k) := by
      rw [← hs]
    obtain ⟨r₀, t, hk, hr₀, hm⟩ :=
      scanLanes_some lanes (scanLanes lanes).1 k hpair
    have hk2 : lanes[k]? = some (r₀ :: t) := by
      rw [← List.get?_eq_getElem?]
      exact hk
    have hpr : processRecord lanes = some (r₀, lanes.set k t) := by
      simp [processRecord, hs, hk2]
    rw [hpr] at h
    simp at h
    obtain ⟨hr, hl⟩ := h
    subst hr
    refine ⟨k, t, hk, hl.symm, by omega, ?_, ?_⟩
    · intro j s u hj
      have := scanLanes_le_heads lanes j s u hj
      omega
    · intro j s u hj hjk
      have := scanLanes_first lanes (scanLanes lanes).1 k hpair j s u hj hjk
      omega

/-- A lane head strictly below the sentinel guarantees the merge step
commits some record. -/
theorem processRecord_isSome_of_head (lanes : List Lane) (k : Nat)
    (s : Record) (u : Lane) (hk : lanes.get? k = some (s :: u))
    (hs : s.timestamp < UINT64_MAX) :
    ∃ r lanes', processRecord lanes = some (r, lanes') := by
  cases hsc : (scanLanes lanes).2 with
  | none =>
    exfalso
    have := (scanLanes_none lanes hsc).2 k s u hk
    omega
  | some k' =>
    have hpair : scanLanes lanes = ((scanLanes lanes).1, some k') := by
      rw [← hsc]
    obtain ⟨r₀, t, hk', _, _⟩ :=
      scanLanes_some lanes (scanLanes lanes).1 k' hpair
    have hk2 : lanes[k']? = some (r₀ :: t) := by
      rw [← List.get?_eq_getElem?]
      exact hk'
    refine ⟨r₀, lanes.set k' t, ?_⟩
    simp [processRecord, hsc, hk2]

/-- With every lane empty, the merge step commits nothing. -/
theorem processRecord_of_all_nil (lanes : List Lane)
    (h : ∀ l ∈ lanes, l = []) : processRecord lanes = none := by
  unfold processRecord
  have := scanFrom_all_nil lanes 0 (UINT64_MAX, none) h
  unfold scanLanes
  rw [this]

/-- When the merge step commits nothing, the scan selected nothing. -/
theorem processRecord_none_scan (lanes : List Lane)
    (h : processRecord lanes = none) : (scanLanes lanes).2 = none := by
  cases hs : (scanLanes lanes).2 with
  | none => rfl
  | some k =>
    exfalso
    have hpair : scanLanes lanes = ((scanLanes lanes).1, some k) := by
      rw [← hs]
    obtain ⟨r₀, t, hk, _, _⟩ :=
      scanLanes_some lanes (scanLanes lanes).1 k hpair
    have hk2 : lanes[k]? = some (r₀ :: t) := by
      rw [← List.get?_eq_getElem?]
      exact hk
    have hpr : processRecord lanes = some (r₀, lanes.set k t) := by
      simp [processRecord, hs, hk2]
    rw [hpr] at h
    exact absurd h (by simp)

/-- A committed record comes off the front of its lane: total record count
drops by exactly one. -/
theorem laneSize_set_tail (lanes : List Lane) :
    ∀ (k : Nat) (r : Record) (t : Lane), lanes.get? k = some (r :: t) →
      laneSize (lanes.set k t) + 1 = laneSize lanes := by
  induction lanes with
  | nil => intro k r t h; simp at h
  | cons lane rest ih =>
    intro k r t h
    cases k with
    | zero =>
      simp at h
      subst h
      simp [laneSize]
      omega
    | succ k' =>
      have := ih k' r t (by simpa using h)
      simp [laneSize] at this ⊢
      omega

/-- Removing the head of lane `k` removes exactly that record from the
multiset of pending records. -/
theorem flatten_set_tail_perm (lanes : List Lane) :
    ∀ (k : Nat) (r : Record) (t : Lane), lanes.get? k = some (r :: t) →
      lanes.flatten.Perm (r :: (lanes.set k t).flatten) := by
  induction lanes with
  | nil => intro k r t h; simp at h
  | cons lane rest ih =>
    intro k r t h
    cases k with
    | zero =>
      simp at h
      subst h
      simp
    | succ k' =>
      have hp := ih k' r t (by simpa using h)
      have h1 : List.Perm (lane ++ rest.flatten)
          (lane ++ (r :: (rest.set k' t).flatten)) :=
        hp.append_left lane
      have h2 : List.Perm (lane ++ (r :: (rest.set k' t).flatten))
          (r :: (lane ++ (rest.set k' t).flatten)) := List.perm_middle
      simpa using h1.trans h2

/-- One merge step removes one record: count version. -/
theorem processRecord_size (lanes : List Lane) (r : Record)
    (lanes' : List Lane) (h : processRecord lanes = some (r, lanes')) :
    laneSize lanes' + 1 = laneSize lanes := by
  obtain ⟨k, t, hk, hl, _, _, _⟩ := processRecord_some lanes r lanes' h
  subst hl
  exact laneSize_set_tail lanes k r t hk

/-- One merge step removes one record: multiset version. -/
theorem processRecord_perm (lanes : List Lane) (r : Record)
    (lanes' : List Lane) (h : processRecord lanes = some (r, lanes')) :
    lanes.flatten.Perm (r :: lanes'.flatten) := by
  obtain ⟨k, t, hk, hl, _, _, _⟩ := processRecord_some lanes r lanes' h
  subst hl
  exact flatten_set_tail_perm lanes k r t hk

/-! ### Properties of the drain loop -/

/-- Zero pending records means every lane is empty. -/
theorem laneSize_eq_zero (lanes : List Lane) (h : laneSize lanes = 0) :
    ∀ l ∈ lanes, l = [] := by
  intro l hl
  have hlen : l.length = 0 := by
    have := List.sum_eq_zero_iff.mp h (l.length)
      (List.mem_map_of_mem List.length hl)
    exact this
  exact List.length_eq_zero.mp hlen

/-- The drain loop never invents or duplicates records: the records it
dispatches together with the records left behind are a permutation of the
pending records. -/
theorem drainFuel_perm :
    ∀ (fuel : Nat) (lanes : List Lane),
      lanes.flatten.Perm
        ((drainFuel fuel lanes).1 ++ (drainFuel fuel lanes).2.flatten) := by
  intro fuel
  induction fuel with
  | zero => intro lanes; simp [drainFuel]
  | succ f ih =>
    intro lanes
    cases hp : processRecord lanes with
    | none => simp [drainFuel, hp]
    | some p =>
      obtain ⟨r, lanes'⟩ := p
      have h1 := processRecord_perm lanes r lanes' hp
      have h2 := ih lanes'
      simp only [drainFuel, hp]
      exact h1.trans (h2.cons r)

/-- With fuel at least the number of pending records, the drain loop stops
in a state where the merge step finds nothing to commit. -/
theorem drainFuel_quiescent :
    ∀ (fuel : Nat) (lanes : List Lane), laneSize lanes ≤ fuel →
      processRecord ((drainFuel fuel lanes).2) = none := by
  intro fuel
  induction fuel with
  | zero =>
    intro lanes h
    have hall := laneSize_eq_zero lanes (by omega)
    exact processRecord_of_all_nil lanes hall
  | succ f ih =>
    intro lanes h
    cases hp : processRecord lanes with
    | none => simp [drainFuel, hp]
    | some p =>
      obtain ⟨r, lanes'⟩ := p
      have hs := processRecord_size lanes r lanes' hp
      have hle : laneSize lanes' ≤ f := by omega
      simpa [drainFuel, hp] using ih lanes' hle

/-- Every record the drain loop dispatches was pending. -/
theorem drainFuel_subset :
    ∀ (fuel : Nat) (lanes : List Lane) (x : Record),
      x ∈ (drainFuel fuel lanes).1 → x ∈ lanes.flatten := by
  intro fuel lanes x hx
  have hperm := drainFuel_perm fuel lanes
  exact hperm.symm.subset (List.mem_append_left _ hx)

/-- Every record the drain loop dispatches has a timestamp strictly below
the sentinel. -/
theorem drainFuel_ts_lt_max :
    ∀ (fuel : Nat) (lanes : List Lane) (x : Record),
      x ∈ (drainFuel fuel lanes).1 → x.timestamp < UINT64_MAX := by
  intro fuel
  induction fuel with
  | zero => intro lanes x hx; simp [drainFuel] at hx
  | succ f ih =>
    intro lanes x hx
    cases hp : processRecord lanes with
    | none => simp [drainFuel, hp] at hx
    | some p =>
      obtain ⟨r, lanes'⟩ := p
      simp only [drainFuel, hp, List.mem_cons] at hx
      rcases hx with hx | hx
      · obtain ⟨k, t, _, _, hr, _, _⟩ := processRecord_some lanes r lanes' hp
        subst hx
        exact hr
      · exact ih lanes' x hx

/-- Merge steps preserve per-lane sortedness. -/
theorem processRecord_sorted (lanes : List Lane) (r : Record)
    (lanes' : List Lane)
    (hsorted : ∀ l ∈ lanes,
      List.Pairwise (fun a b => a.timestamp ≤ b.timestamp) l)
    (hp : processRecord lanes = some (r, lanes')) :
    ∀ l ∈ lanes',
      List.Pairwise (fun a b => a.timestamp ≤ b.timestamp) l := by
  obtain ⟨k, t, hk, hl, _, _, _⟩ := processRecord_some lanes r lanes' hp
  subst hl
  intro l hl
  rcases List.mem_or_eq_of_mem_set hl with hmem | heq
  · exact hsorted l hmem
  · subst heq
    have hmem : (r :: l) ∈ lanes := List.get?_mem hk
    exact (hsorted (r :: l) hmem).of_cons

/-- With sorted lanes, the committed record of a merge step is a lower
bound for everything still pending afterwards. -/
theorem processRecord_lower_bound (lanes : List Lane) (r : Record)
    (lanes' : List Lane)
    (hsorted : ∀ l ∈ lanes,
      List.Pairwise (fun a b => a.timestamp ≤ b.timestamp) l)
    (hp : processRecord lanes = some (r, lanes')) :
    ∀ x ∈ lanes'.flatten, r.timestamp ≤ x.timestamp := by
  intro x hx
  have hperm := processRecord_perm lanes r lanes' hp
  have hx' : x ∈ lanes.flatten :=
    hperm.symm.subset (List.mem_cons_of_mem r hx)
  obtain ⟨l, hl, hxl⟩ := List.mem_flatten.mp hx'
  obtain ⟨h0, t0, hcons⟩ : ∃ h0 t0, l = h0 :: t0 := by
    cases l with
    | nil => simp at hxl
    | cons h0 t0 => exact ⟨h0, t0, rfl⟩
  subst hcons
  obtain ⟨j, hj⟩ := List.mem_iff_get?.mp hl
  obtain ⟨_, _, _, _, _, hmin, _⟩ := processRecord_some lanes r lanes' hp
  have hrh : r.timestamp ≤ h0.timestamp := hmin j h0 t0 hj
  rcases List.mem_cons.mp hxl with hx0 | hxt
  · subst hx0; exact hrh
  · have := List.rel_of_pairwise_cons (hsorted (h0 :: t0) hl) hxt
    omega

/-- With sorted lanes, the drain loop dispatches in non-decreasing
timestamp order. -/
theorem drainFuel_sorted :
    ∀ (fuel : Nat) (lanes : List Lane),
      (∀ l ∈ lanes,
        List.Pairwise (fun a b => a.timestamp ≤ b.timestamp) l) →
      List.Pairwise (fun a b => a.timestamp ≤ b.timestamp)
        (drainFuel fuel lanes).1 := by
  intro fuel
  induction fuel with
  | zero => intro lanes _; simp [drainFuel]
  | succ f ih =>
    intro lanes hsorted
    cases hp : processRecord lanes with
    | none => simp [drainFuel, hp]
    | some p =>
      obtain ⟨r, lanes'⟩ := p
      simp only [drainFuel, hp]
      refine List.Pairwise.cons ?_ (ih lanes' (processRecord_sorted lanes r lanes' hsorted hp))
      intro x hx
      exact processRecord_lower_bound lanes r lanes' hsorted hp x
        (drainFuel_subset f lanes' x hx)

/-- `exitDrain` always stops in a quiescent state. -/
theorem exitDrain_quiescent (lanes : List Lane) :
    processRecord ((exitDrain lanes).2) = none :=
  drainFuel_quiescent (laneSize lanes) lanes (le_refl _)

/-- `exitDrain` preserves the multiset of records. -/
theorem exitDrain_perm (lanes : List Lane) :
    lanes.flatten.Perm
      ((exitDrain lanes).1 ++ (exitDrain lanes).2.flatten) :=
  drainFuel_perm (laneSize lanes) lanes

/-- When every pending timestamp is strictly below the sentinel,
`exitDrain` leaves nothing behind. -/
theorem exitDrain_flatten_nil (lanes : List Lane)
    (h : ∀ r ∈ lanes.flatten, r.timestamp < UINT64_MAX) :
    (exitDrain lanes).2.flatten = [] := by
  have hq := exitDrain_quiescent lanes
  have hsc := processRecord_none_scan _ hq
  obtain ⟨_, hheads⟩ := scanLanes_none _ hsc
  rw [List.flatten_eq_nil_iff]
  intro l hl
  cases hcons : l with
  | nil => rfl
  | cons h0 t0 =>
    exfalso
    subst hcons
    obtain ⟨j, hj⟩ := List.mem_iff_get?.mp hl
    have hge := hheads j h0 t0 hj
    have hmem : h0 ∈ (exitDrain lanes).2.flatten :=
      List.mem_flatten.mpr ⟨h0 :: t0, hl, List.mem_cons_self h0 t0⟩
    have hx : h0 ∈ lanes.flatten :=
      (exitDrain_perm lanes).symm.subset (List.mem_append_right _ hmem)
    have := h h0 hx
    omega

/-! ### Claims -/

/-- C1, counterexample: with pushes interleaved between merge steps, a
per-producer strictly increasing interleaving still commits `[100, 50]`,
which is not non-decreasing. The claim as stated, over arbitrary
interleavings, is false on the code. -/
theorem C1_counterexample :
    perProducerIncreasing 2
        [Op.push 0 ⟨100, 0⟩, Op.mergeStep, Op.push 1 ⟨50, 1⟩, Op.mergeStep] ∧
      ¬ committedNonDecreasing
          (runOps
            [Op.push 0 ⟨100, 0⟩, Op.mergeStep, Op.push 1 ⟨50, 1⟩,
              Op.mergeStep]
            ([[], []], [])).2 := by
  unfold perProducerIncreasing committedNonDecreasing
  constructor
  · decide
  · decide

/-- C1, amended: when all pushes happen before the merge phase — so the
engine drains a snapshot in which every lane is already in non-decreasing
timestamp order, as produced by in-order per-producer pushes — the
committed sequence is non-decreasing in timestamp, because each non-idle
merge step selects a head of minimum timestamp. -/
theorem C1_global_order (lanes : List Lane)
    (h : ∀ l ∈ lanes,
      List.Pairwise (fun a b => a.timestamp ≤ b.timestamp) l) :
    committedNonDecreasing (exitDrain lanes).1 :=
  drainFuel_sorted (laneSize lanes) lanes h

/-- C1, witness: the scenario lanes A = [5, 8], B = [6], C = [] drain in
non-decreasing order. -/
theorem C1_witness :
    committedNonDecreasing
      (exitDrain [[⟨5, 0⟩, ⟨8, 1⟩], [⟨6, 2⟩], []]).1 :=
  C1_global_order [[⟨5, 0⟩, ⟨8, 1⟩], [⟨6, 2⟩], []] (by decide)

/-- C2, counterexample: a record whose timestamp is the sentinel value is
silently lost — the drain dispatches nothing, so the dispatched sequence
is not a permutation of the pushed records. -/
theorem C2_counterexample :
    ¬ List.Perm (exitDrain [[⟨UINT64_MAX, 0⟩]]).1
        ([[⟨UINT64_MAX, 0⟩]] : List Lane).flatten :=
  fun hperm => absurd hperm.length_eq (by decide)

/-- C2, amended: provided every pushed timestamp is strictly below
`2 ^ 64 - 1`, a full drain dispatches every pending record exactly once
(the dispatched sequence is a permutation of the pending records) and
leaves every lane empty. -/
theorem C2_exactly_once (lanes : List Lane)
    (h : ∀ r ∈ lanes.flatten, r.timestamp < UINT64_MAX) :
    List.Perm lanes.flatten (exitDrain lanes).1 ∧
      (exitDrain lanes).2.flatten = [] := by
  have hnil := exitDrain_flatten_nil lanes h
  have hperm := exitDrain_perm lanes
  rw [hnil, List.append_nil] at hperm
  exact ⟨hperm, hnil⟩

/-- C2, witness: the scenario lanes drain to a permutation of their
contents with nothing left behind. -/
theorem C2_witness :
    List.Perm ([[⟨5, 0⟩, ⟨8, 1⟩], [⟨6, 2⟩], []] : List Lane).flatten
        (exitDrain [[⟨5, 0⟩, ⟨8, 1⟩], [⟨6, 2⟩], []]).1 ∧
      (exitDrain [[⟨5, 0⟩, ⟨8, 1⟩], [⟨6, 2⟩], []]).2.flatten = [] :=
  C2_exactly_once [[⟨5, 0⟩, ⟨8, 1⟩], [⟨6, 2⟩], []] (by decide)

/-- C3, counterexample: a lane whose head carries the sentinel timestamp
yields a record to the scan, yet the step commits nothing, refuting the
clause that a commit happens whenever any lane yielded a record. -/
theorem C3_counterexample :
    ¬ ((∃ l ∈ ([[⟨UINT64_MAX, 3⟩]] : List Lane), l ≠ []) →
      (processRecord [[⟨UINT64_MAX, 3⟩]]).isSome = true) := by
  decide

/-- C3, amended: in every merge step, a committed record is the head of
exactly one lane, which loses exactly that head; every other lane is left
unchanged (its peek handle was released); the committed timestamp is a
minimum over all lane heads; and a commit happens whenever some lane
yields a record with timestamp strictly below `2 ^ 64 - 1` (rather than
whenever some lane yields any record). -/
theorem C3_step_shape (lanes : List Lane) :
    (∀ r lanes', processRecord lanes = some (r, lanes') →
      ∃ k t, lanes.get? k = some (r :: t) ∧ lanes' = lanes.set k t ∧
        (∀ j, j ≠ k → lanes'.get? j = lanes.get? j) ∧
        ∀ j s u, lanes.get? j = some (s :: u) →
          r.timestamp ≤ s.timestamp) ∧
      ((∃ k s u, lanes.get? k = some (s :: u) ∧ s.timestamp < UINT64_MAX) →
        ∃ r lanes', processRecord lanes = some (r, lanes')) := by
  constructor
  · intro r lanes' hp
    obtain ⟨k, t, hk, hl, _, hmin, _⟩ := processRecord_some lanes r lanes' hp
    refine ⟨k, t, hk, hl, ?_, hmin⟩
    intro j hj
    subst hl
    rw [List.get?_eq_getElem?, List.get?_eq_getElem?]
    exact List.getElem?_set_ne (Ne.symm hj)
  · rintro ⟨k, s, u, hk, hs⟩
    exact processRecord_isSome_of_head lanes k s u hk hs

/-- C3, witness: a lane with head timestamp 7 makes the step commit. -/
theorem C3_witness :
    ∃ r lanes', processRecord [[(⟨7, 0⟩ : Record)]] = some (r, lanes') :=
  (C3_step_shape [[⟨7, 0⟩]]).2 ⟨0, ⟨7, 0⟩, [], by decide, by decide⟩

/-- C4, counterexample: a record with the sentinel timestamp is pending
before the drain but is never dispatched, although the drain loop
terminates — refuting the clause that termination implies every pre-stop
record was dispatched. -/
theorem C4_counterexample :
    (⟨UINT64_MAX, 4⟩ : Record) ∈
        ([[⟨UINT64_MAX, 4⟩], []] : List Lane).flatten ∧
      (⟨UINT64_MAX, 4⟩ : Record) ∉ (exitDrain [[⟨UINT64_MAX, 4⟩], []]).1 := by
  decide

/-- C4, amended: the post-stop drain terminates exactly in a state where
a merge step selects no record; provided every pending timestamp is
strictly below `2 ^ 64 - 1`, that state has every lane empty, so every
record pushed before the stop observation is dispatched before the engine
thread exits. -/
theorem C4_drain_terminates (lanes : List Lane) :
    processRecord ((exitDrain lanes).2) = none ∧
      ((∀ r ∈ lanes.flatten, r.timestamp < UINT64_MAX) →
        (exitDrain lanes).2.flatten = []) :=
  ⟨exitDrain_quiescent lanes, exitDrain_flatten_nil lanes⟩

/-- C4, witness: two ordinary records are fully drained. -/
theorem C4_witness :
    (exitDrain [[(⟨2, 0⟩ : Record)], [⟨9, 1⟩]]).2.flatten = [] :=
  (C4_drain_terminates [[⟨2, 0⟩], [⟨9, 1⟩]]).2 (by decide)

/-- C5, counterexample: with cpu affinity 0 requested and the affinity
syscall failing, the startup error is raised on the worker thread, yet the
caller of `run` sees a normal return and the running flag is already true
— refuting the claim that `run` fails before entering the running state
and surfaces the error to its caller. -/
theorem C5_counterexample :
    ¬ (workerStartup ⟨0, 100⟩ ⟨false, true⟩ =
          Except.error SetupError.affinityFailed →
        (runModel ⟨0, 100⟩ ⟨false, true⟩ freshWorkerState).1.is_running =
            false ∧
          (runModel ⟨0, 100⟩ ⟨false, true⟩ freshWorkerState).2.1 =
            Except.error SetupError.affinityFailed) := by
  decide

/-- C5, amended: on a first call, `run` always returns normally to its
caller and always sets the running flag, regardless of the host
environment; a cpu-placement or thread-naming failure surfaces only as an
exception on the worker thread, which fails exactly when a requested
capability is unavailable. -/
theorem C5_startup_failure (cfg : Config) (env : HostEnv) :
    (runModel cfg env freshWorkerState).1.is_running = true ∧
      (runModel cfg env freshWorkerState).2.1 = Except.ok () ∧
      (runModel cfg env freshWorkerState).2.2 = workerStartup cfg env ∧
      (workerStartup cfg env = Except.ok () ↔
        (cfg.cpu_affinity = UINT16_MAX ∨ env.affinity_ok = true) ∧
          env.name_ok = true) := by
  refine ⟨rfl, rfl, rfl, ?_⟩
  obtain ⟨a, n⟩ := env
  unfold workerStartup
  by_cases hc : cfg.cpu_affinity = UINT16_MAX <;> cases a <;> cases n <;>
    simp [hc]

/-- C5, witness: with no affinity requested and naming available, the
worker-thread startup succeeds. -/
theorem C5_witness :
    workerStartup ⟨65535, 1⟩ ⟨true, true⟩ = Except.ok () :=
  (C5_startup_failure ⟨65535, 1⟩ ⟨true, true⟩).2.2.2.mpr (by decide)

/-- C6: for two lanes holding equal head timestamps, the merge step never
removes the head of the lane scanned later: strict less-than comparison
lets the first lane encountered retain the minimum, so the record of the
earlier lane is dispatched first. -/
theorem C6_tie_earlier_lane (lanes : List Lane) (i j : Nat) (a b : Record)
    (hij : i < j) (ha : ∃ t, lanes.get? i = some (a :: t))
    (hb : ∃ u, lanes.get? j = some (b :: u))
    (heq : a.timestamp = b.timestamp) :
    ∀ r lanes', processRecord lanes = some (r, lanes') →
      lanes'.get? j = lanes.get? j := by
  intro r lanes' hp
  obtain ⟨t, ht⟩ := ha
  obtain ⟨u, hu⟩ := hb
  obtain ⟨k, tk, hk, hl, _, hmin, hfirst⟩ :=
    processRecord_some lanes r lanes' hp
  by_cases hjk : j = k
  · exfalso
    subst hjk
    rw [hu] at hk
    simp at hk
    obtain ⟨hrb, _⟩ := hk
    subst hrb
    have hlt := hfirst i a t ht (by omega)
    omega
  · subst hl
    rw [List.get?_eq_getElem?, List.get?_eq_getElem?]
    exact List.getElem?_set_ne (fun he => hjk he.symm)

/-- C6, witness: two lanes with head timestamp 5 in both; the step leaves
the later lane untouched. -/
theorem C6_witness :
    ([[], [(⟨5, 1⟩ : Record)]] : List Lane).get? 1 =
      ([[⟨5, 0⟩], [⟨5, 1⟩]] : List Lane).get? 1 :=
  C6_tie_earlier_lane [[⟨5, 0⟩], [⟨5, 1⟩]] 0 1 ⟨5, 0⟩ ⟨5, 1⟩ (by decide)
    ⟨[], by decide⟩ ⟨[], by decide⟩ (by decide) ⟨5, 0⟩ [[], [⟨5, 1⟩]]
    (by decide)

/-- C7: one main-loop iteration sleeps exactly when the merge step
reported idle, and with every lane empty the iteration dispatches nothing
and sleeps. -/
theorem C7_idle_backoff (lanes : List Lane) :
    ((mainLoopStep lanes).2 = EngineEvent.slept ↔
        processRecord lanes = none) ∧
      ((∀ l ∈ lanes, l = []) →
        mainLoopStep lanes = (lanes, EngineEvent.slept)) := by
  constructor
  · cases hp : processRecord lanes with
    | none => simp [mainLoopStep, hp]
    | some p =>
      obtain ⟨r, lanes'⟩ := p
      simp [mainLoopStep, hp]
  · intro h
    have hp := processRecord_of_all_nil lanes h
    simp [mainLoopStep, hp]

/-- C7, witness: two empty lanes make the iteration sleep without a
dispatch. -/
theorem C7_witness :
    mainLoopStep [[], []] = ([[], []], EngineEvent.slept) :=
  (C7_idle_backoff [[], []]).2 (by decide)

/-- C8: `stop` always clears the running flag, always leaves the worker
thread joined, is idempotent, and is a no-op when the engine is not
running and no thread exists. -/
theorem C8_stop_idempotent (st : WorkerState) :
    (stop st).is_running = false ∧
      (stop st).thread_joinable = false ∧
      stop (stop st) = stop st ∧
      (st.is_running = false → st.thread_joinable = false →
        stop st = st) := by
  refine ⟨rfl, rfl, rfl, ?_⟩
  intro h1 h2
  obtain ⟨a, b, c⟩ := st
  simp only [stop]
  simp at h1 h2
  rw [h1, h2]

/-- C8, witness: stopping a never-started engine changes nothing. -/
theorem C8_witness : stop freshWorkerState = freshWorkerState :=
  (C8_stop_idempotent freshWorkerState).2.2.2 rfl rfl

/-- C9: a record whose timestamp equals `2 ^ 64 - 1` is never selected by
a merge step (every committed record is strictly below the sentinel),
never appears in the drained output, and all such records are still
pending after the drain loop terminates. -/
theorem C9_sentinel_never_selected (lanes : List Lane) :
    (∀ r lanes', processRecord lanes = some (r, lanes') →
        r.timestamp < UINT64_MAX) ∧
      (∀ r, r ∈ (exitDrain lanes).1 → r.timestamp < UINT64_MAX) ∧
      List.countP (fun r => r.timestamp == UINT64_MAX)
          ((exitDrain lanes).2.flatten) =
        List.countP (fun r => r.timestamp == UINT64_MAX) lanes.flatten := by
  refine ⟨?_, ?_, ?_⟩
  · intro r lanes' hp
    obtain ⟨_, _, _, _, hr, _, _⟩ := processRecord_some lanes r lanes' hp
    exact hr
  · intro r hr
    exact drainFuel_ts_lt_max (laneSize lanes) lanes r hr
  · have hperm :=
      List.Perm.countP_eq (fun r => r.timestamp == UINT64_MAX)
        (exitDrain_perm lanes)
    rw [List.countP_append] at hperm
    have hz : List.countP (fun r => r.timestamp == UINT64_MAX)
        (exitDrain lanes).1 = 0 := by
      rw [List.countP_eq_zero]
      intro x hx
      have := drainFuel_ts_lt_max (laneSize lanes) lanes x hx
      simp only [beq_iff_eq]
      omega
    omega

/-- C9, witness: ordinary records are committed with timestamps strictly
below the sentinel. -/
theorem C9_witness :
    (⟨3, 0⟩ : Record).timestamp < UINT64_MAX ∧
      (⟨5, 1⟩ : Record).timestamp < UINT64_MAX :=
  ⟨(C9_sentinel_never_selected [[⟨3, 0⟩]]).1 ⟨3, 0⟩ [[]] (by decide),
    (C9_sentinel_never_selected [[⟨5, 1⟩]]).2.1 ⟨5, 1⟩ (by decide)⟩

/-- C10: once the once-flag has been consumed by a first `run`, after
`stop` has returned every later `run` call — any number of them — leaves
the state unchanged: no thread is spawned and the running flag stays
false; the engine cannot be restarted. -/
theorem C10_no_restart (st : WorkerState) (h : st.once_flag_used = true) :
    run (stop st) = stop st ∧
      (stop st).is_running = false ∧
      ∀ n, run^[n] (stop st) = stop st := by
  have hrun : run (stop st) = stop st := by
    simp [run, stop, h]
  refine ⟨hrun, rfl, ?_⟩
  intro n
  induction n with
  | zero => rfl
  | succ n ih => rw [Function.iterate_succ_apply', ih, hrun]

/-- C10, witness: run, stop, then run again: the second run is a no-op. -/
theorem C10_witness :
    run (stop (run freshWorkerState)) = stop (run freshWorkerState) :=
  (C10_no_restart (run freshWorkerState) rfl).1

end Quill
